import Mathlib

/-!
# Multiverso KMeans application: partitioning, nearest centre, mini-batch step

A shallow embedding of `Applications/KMeans/src/main.cpp` (and the `Load`
of `_main.cpp`, which is the same text).

Conventions of the embedding.

* `int` values are `Int`; C++ integer division and remainder truncate
  towards zero (`Int.tdiv`, `Int.tmod`).  `Load` computes over unbounded
  integers; `LoadStore` is the same computation in 32-bit `int`, where a
  signed overflow is undefined behaviour, followed by the `DataStore`
  constructor.
* `float` and `double` values are rationals, and every floating-point
  operation of the source is the exact operation followed by rounding to the
  format of its result (`fl32` for IEEE 754 binary32, `fl64` for binary64,
  round to nearest, ties to even, subnormals included; each C++ operation is
  evaluated in the format of its operands, without fused multiply-add).  A
  result outside the finite range of the format (overflow, division by zero)
  is `none`: infinities and NaN are outside the model.
  `std::numeric_limits<float>::max()` is the rational `FLT_MAX`.
* `std::vector<T>` is `List T`.  An access outside the vector, a division of
  an `int` by zero, and an iterator formed outside its vector are undefined
  behaviour in C++; the embedding returns `none` there, so `some r` means the
  code ran inside its bounds, stayed within the finite floats, and produced
  `r`.
-/

namespace KMeans

/-! ## Data partition (`KMeans::Load`) -/

/-- The `(line_offset, num_lines)` pair that `KMeans::Load` passes to the
`DataStore` constructor, from `total_size = config_->num_records`,
`num_workers = MV_NumWorkers()` and `id = MV_WorkerId()`, computed over
unbounded integers; on the inputs of a run the 32-bit computation `LoadStore`
yields the same pair (`LoadStore_in_range`). -/
def Load (total_size num_workers id : Int) : Option (Int × Int) :=
  if num_workers = 0 then none
  else
    let partition_size := Int.tdiv total_size num_workers
    if id < Int.tmod total_size num_workers then
      some (id * (partition_size + 1), partition_size + 1)
    else
      some (id * partition_size + Int.tmod total_size num_workers, partition_size)


/-- First record of worker `w` in closed form (also meaningful at
`w = num_workers`, where it is the total). -/
def partStart (total_size num_workers w : Int) : Int :=
  if w < Int.tmod total_size num_workers then
    w * (Int.tdiv total_size num_workers + 1)
  else
    w * Int.tdiv total_size num_workers + Int.tmod total_size num_workers

/-- Number of records of worker `w` in closed form. -/
def partLen (total_size num_workers w : Int) : Int :=
  if w < Int.tmod total_size num_workers then
    Int.tdiv total_size num_workers + 1
  else
    Int.tdiv total_size num_workers

/-- The least value of a 32-bit `int`. -/
def INT_MIN : Int := -2 ^ 31

/-- The greatest value of a 32-bit `int`. -/
def INT_MAX : Int := 2 ^ 31 - 1

/-- The value of an `int` expression whose mathematical value is `x`: a
result outside the 32-bit range is a signed overflow, undefined behaviour. -/
def int32 (x : Int) : Option Int :=
  if INT_MIN ≤ x ∧ x ≤ INT_MAX then some x else none

/-- How the first statement of `KMeans::Load` ends: a `DataStore` built on
`(line_offset, num_lines)`, or the `std::length_error` that
`buffer_.reserve(num_lines)` throws in the constructor (`reader.h`, line 36)
when the `int` `num_lines` is negative and so converts to a `size_t` above
`max_size()`. -/
inductive LoadOutcome where
  | constructed (line_offset num_lines : Int)
  | length_error
  deriving DecidableEq, Repr

/-- The constructor call `new DataStore<float>(..., line_offset, num_lines, ...)`. -/
def newDataStore (line_offset num_lines : Int) : LoadOutcome :=
  if num_lines < 0 then LoadOutcome.length_error
  else LoadOutcome.constructed line_offset num_lines

/-- Lines 72-86 of `main.cpp` in 32-bit `int` arithmetic, up to and including
the `DataStore` constructor.  `none` is undefined behaviour: division by zero,
the quotient `INT_MIN / -1`, or a product or sum outside the `int` range. -/
def LoadStore (total_size num_workers id : Int) : Option LoadOutcome :=
  if num_workers = 0 then none
  else if total_size = INT_MIN ∧ num_workers = -1 then none
  else
    let partition_size := Int.tdiv total_size num_workers
    if id < Int.tmod total_size num_workers then
      match int32 (partition_size + 1) with
      | none => none
      | some num_lines =>
        match int32 (id * num_lines) with
        | none => none
        | some line_offset => some (newDataStore line_offset num_lines)
    else
      match int32 (id * partition_size) with
      | none => none
      | some prod =>
        match int32 (prod + Int.tmod total_size num_workers) with
        | none => none
        | some line_offset => some (newDataStore line_offset partition_size)

/-! ## Floating-point arithmetic -/

/-- The rational `2 ^ e`. -/
def pow2 (e : Int) : ℚ :=
  if 0 ≤ e then ((2 ^ e.toNat : Nat) : ℚ) else 1 / ((2 ^ (-e).toNat : Nat) : ℚ)

/-- Binary search for the binade of `a`: the greatest exponent `e` with
`e ≤ emax` and `2 ^ e ≤ a` among `e0, e0 + 1, ..., e0 + 2 ^ j - 1`, and `e0`
itself when there is none. -/
def expSearch (a : ℚ) (emax : Int) : Nat → Int → Int
  | 0, e0 => e0
  | j + 1, e0 =>
    if e0 + 2 ^ j ≤ emax ∧ pow2 (e0 + 2 ^ j) ≤ a then expSearch a emax j (e0 + 2 ^ j)
    else expSearch a emax j e0

/-- The integer nearest to `m`, the even one of the two when `m` is half-way. -/
def roundHalfEven (m : ℚ) : Int :=
  if m - ⌊m⌋ < 1 / 2 then ⌊m⌋
  else if 1 / 2 < m - ⌊m⌋ then ⌊m⌋ + 1
  else if ⌊m⌋ % 2 = 0 then ⌊m⌋ else ⌊m⌋ + 1

/-- Rounding of the rational `x` to the binary floating-point format with
`prec` significand bits and normal exponents `emin .. emax` (fewer than
`2 ^ bits` of them): to the nearest multiple of the unit in the last place of
the binade of `x` (of the subnormal unit below `2 ^ emin`), ties to even;
`none` when the rounded magnitude reaches `2 ^ (emax + 1)`. -/
def roundTo (prec : Nat) (emin emax : Int) (bits : Nat) (x : ℚ) : Option ℚ :=
  if x = 0 then some 0
  else
    let a := if x < 0 then -x else x
    let ulp := pow2 (expSearch a emax bits emin - ((prec : Int) - 1))
    let y := (roundHalfEven (a / ulp) : ℚ) * ulp
    if pow2 (emax + 1) ≤ y then none
    else if x < 0 then some (-y) else some y

/-- Rounding to `float` (IEEE 754 binary32). -/
def fl32 (x : ℚ) : Option ℚ := roundTo 24 (-126) 127 8 x

/-- Rounding to `double` (IEEE 754 binary64). -/
def fl64 (x : ℚ) : Option ℚ := roundTo 53 (-1022) 1023 11 x

/-- The `float` sum `a + b`. -/
def fadd32 (a b : ℚ) : Option ℚ := fl32 (a + b)

/-- The `float` difference `a - b`. -/
def fsub32 (a b : ℚ) : Option ℚ := fl32 (a - b)

/-- The `float` product `a * b`. -/
def fmul32 (a b : ℚ) : Option ℚ := fl32 (a * b)

/-- The `double` sum `a + b`. -/
def fadd64 (a b : ℚ) : Option ℚ := fl64 (a + b)

/-- The `double` quotient `a / b`; a zero divisor gives an infinity or NaN. -/
def fdiv64 (a b : ℚ) : Option ℚ := if b = 0 then none else fl64 (a / b)

/-! ## Samples and vectors -/

/-- Modelled from the spec: the `Sample<float>` record of `data_type.h`, which
is not among the sources; `main.cpp` reads its `keys` and `values` members
only.  Spec §3, SampleRecord: `keys` (feature indices), `values` (floats),
`label`, `weight`. -/
structure Sample where
  /-- Feature indices, `sample->keys`. -/
  keys : List Nat
  /-- Feature values, `sample->values`. -/
  values : List ℚ
  /-- Class label. -/
  label : Int
  /-- Sample weight. -/
  weight : ℚ

/-- The constant `std::numeric_limits<float>::max()`, `(2^24 - 1) * 2^104`. -/
def FLT_MAX : ℚ := (2 ^ 24 - 1) * 2 ^ 104

/-- The range constructor `std::vector<float>(first, last)` with
`first = v.begin() + start` and `last = first + len`. -/
def slice (v : List ℚ) (start len : Nat) : Option (List ℚ) :=
  if start + len ≤ v.length then some ((v.drop start).take len) else none

/-- The loop `for j < keys.size(): diff[keys[j]] -= values[j]`
(lines 27-28 and 196-197 of `main.cpp`), a `float` subtraction per key. -/
def subtractSample : List Nat → List ℚ → List ℚ → Option (List ℚ)
  | [], _, diff => some diff
  | _ :: _, [], _ => none
  | k :: ks, v :: vs, diff =>
    match diff[k]? with
    | none => none
    | some x =>
      match fsub32 x v with
      | none => none
      | some y => subtractSample ks vs (diff.set k y)

/-- The call `std::inner_product(first1, last1, first2, init)` on `float`
ranges with a `double` `init`: each product is a `float` product, converted
to `double` and added to the accumulator in `double`. -/
def inner_product : List ℚ → List ℚ → ℚ → Option ℚ
  | a :: as, b :: bs, acc =>
    match fmul32 a b with
    | none => none
    | some p =>
      match fadd64 acc p with
      | none => none
      | some acc => inner_product as bs acc
  | _, _, acc => some acc

/-! ## Nearest centre (`get_nearest_center`) -/

/-- Body of the loop of `get_nearest_center` up to line 30: the value of
`square_dist` for cluster `i`, the `double` result of `std::inner_product`
converted to `float`. -/
def square_dist (sample : Sample) (params : List ℚ) (num_features i : Nat) : Option ℚ :=
  match slice params (i * num_features) num_features with
  | none => none
  | some diff =>
    match subtractSample sample.keys sample.values diff with
    | none => none
    | some diff =>
      match inner_product diff diff 0 with
      | none => none
      | some sum => fl32 sum

/-- State `(id_cluster_center, min_square_dist)` of `get_nearest_center` after
the first `i` rounds of its loop. -/
def nearestLoop (sample : Sample) (params : List ℚ) (num_features : Nat) :
    Nat → Option (Int × ℚ)
  | 0 => some (-1, FLT_MAX)
  | i + 1 =>
    match nearestLoop sample params num_features i with
    | none => none
    | some (id_cluster_center, min_square_dist) =>
      match square_dist sample params num_features i with
      | none => none
      | some d =>
        if d < min_square_dist then some ((i : Int), d)
        else some (id_cluster_center, min_square_dist)

/-- The function `get_nearest_center(sample, K, params, num_features)`: the
pair `(id_cluster_center, min_square_dist)`.  `K` and `num_features` are
taken non-negative. -/
def get_nearest_center (sample : Sample) (K : Nat) (params : List ℚ)
    (num_features : Nat) : Option (Int × ℚ) :=
  nearestLoop sample params num_features K

/-! ## One training iteration (`KMeans::Train`, lines 179-207) -/

/-- The value of `alpha` in line 190: the `double` `learning_rate_coef`
divided in `double` by the incremented count, stored in a `float`. -/
def learningRate (learning_rate_coef count : ℚ) : Option ℚ :=
  match fdiv64 learning_rate_coef count with
  | none => none
  | some q => fl32 q

/-- The loop of lines 199-200, `step_sum[k + base] -= alpha * c[k]`, after its
first `k` rounds: a `float` product and a `float` subtraction per entry; `cs`
is the vector `c` of the source and `base = id_nearest_center * input_size`. -/
def centroidUpdate (alpha : ℚ) (cs : List ℚ) (base : Nat) (step_sum : List ℚ) :
    Nat → Option (List ℚ)
  | 0 => some step_sum
  | k + 1 =>
    match centroidUpdate alpha cs base step_sum k with
    | none => none
    | some w =>
      match cs[k]? with
      | none => none
      | some ck =>
        match w[k + base]? with
        | none => none
        | some x =>
          match fmul32 alpha ck with
          | none => none
          | some p =>
            match fsub32 x p with
            | none => none
            | some y => some (w.set (k + base) y)

/-- Body of the per-sample loop (lines 188-200).  The count entry is
pre-incremented as a `float` and the incremented value divides
`learning_rate_coef`.  With `id_nearest_center = -1` the source forms the
centroid range before `step_sum.begin()` (or, when `input_size = 0`, indexes
`step_sum` at `2^64 - 1`): undefined behaviour, `none` here. -/
def trainSample (K input_size : Nat) (learning_rate_coef : ℚ) (step_sum : List ℚ)
    (sample : Sample) : Option (List ℚ) :=
  match get_nearest_center sample K step_sum input_size with
  | none => none
  | some (id_nearest_center, _) =>
    if id_nearest_center < 0 then none
    else
      let id := id_nearest_center.toNat
      match step_sum[K * input_size + id]? with
      | none => none
      | some count =>
        match fadd32 count 1 with
        | none => none
        | some count =>
          let step_sum := step_sum.set (K * input_size + id) count
          match learningRate learning_rate_coef count with
          | none => none
          | some alpha =>
            match slice step_sum (id * input_size) input_size with
            | none => none
            | some cs =>
              match subtractSample sample.keys sample.values cs with
              | none => none
              | some cs => centroidUpdate alpha cs (id * input_size) step_sum input_size

/-- The per-sample loop of lines 186-201 over the `batch_size` samples of the
mini-batch, in order. -/
def trainBatch (K input_size : Nat) (learning_rate_coef : ℚ) :
    List ℚ → List Sample → Option (List ℚ)
  | step_sum, [] => some step_sum
  | step_sum, sample :: rest =>
    match trainSample K input_size learning_rate_coef step_sum sample with
    | none => none
    | some step_sum => trainBatch K input_size learning_rate_coef step_sum rest

/-- The loop of lines 204-205, `step_sum[i] -= model[i]` for
`i < step_sum.size()`, a `float` subtraction per entry. -/
def subtractModel : List ℚ → List ℚ → Option (List ℚ)
  | [], _ => some []
  | _ :: _, [] => none
  | s :: step_sum, m :: model =>
    match fsub32 s m with
    | none => none
    | some d =>
      match subtractModel step_sum model with
      | none => none
      | some rest => some (d :: rest)

/-- One round of the `iter` loop (lines 180-207): `model` is what
`table_->Get` delivered, `samples` the mini-batch read, and the result is the
vector handed to `table_->Add`. -/
def trainIteration (K input_size : Nat) (learning_rate_coef : ℚ) (model : List ℚ)
    (samples : List Sample) : Option (List ℚ) :=
  match trainBatch K input_size learning_rate_coef model samples with
  | none => none
  | some step_sum => subtractModel step_sum model

/-! ## Evaluation (`test_error`) -/

/-- State `(sum, count)` of `test_error` after the first `i` rounds of its
loop over the records; `count` starts as `std::vector<int>(2)` and `sum` is a
`float`. -/
def errorLoop (params : List ℚ) (samples : List Sample) (K num_features : Nat) :
    Nat → Option (ℚ × List Int)
  | 0 => some (0, [0, 0])
  | i + 1 =>
    match errorLoop params samples K num_features i with
    | none => none
    | some (sum, count) =>
      match samples[i]? with
      | none => none
      | some sample =>
        match get_nearest_center sample K params num_features with
        | none => none
        | some (id, dist) =>
          match fadd32 sum dist with
          | none => none
          | some sum =>
            if id < 0 then none
            else
              match count[id.toNat]? with
              | none => none
              | some c => some (sum, count.set id.toNat (c + 1))

/-- The loop of lines 59-60 after its first `i` rounds: the values
`count[0] .. count[i-1]` written to the output. -/
def printCounts (count : List Int) : Nat → Option (List Int)
  | 0 => some []
  | i + 1 =>
    match printCounts count i with
    | none => none
    | some out =>
      match count[i]? with
      | none => none
      | some c => some (out ++ [c])

/-- The function `test_error`: the sum of squared errors and the `K` counts
`count[0] .. count[K-1]` that it prints. -/
def test_error (params : List ℚ) (samples : List Sample) (K data_size num_features : Nat) :
    Option (ℚ × List Int) :=
  match errorLoop params samples K num_features data_size with
  | none => none
  | some (sum, count) =>
    match printCounts count K with
    | none => none
    | some printed => some (sum, printed)

/-! ## Centroid initialisation (`KMeans::Init`, worker 0) -/

/-- The loop of lines 116-118, `params[keys[j] + base] = values[j]`, with
`base = i * input_size`. -/
def writeSample : List Nat → List ℚ → Nat → List ℚ → Option (List ℚ)
  | [], _, _, params => some params
  | _ :: _, [], _, _ => none
  | k :: ks, v :: vs, base, params =>
    if k + base < params.length then writeSample ks vs base (params.set (k + base) v)
    else none

/-- The loops of lines 107-123.  Every element of `draws` is one value of
`rand()`, in the order of the calls; the state is the centroid slot `i`, the
vector `prohibited_indexes` and `params`.  A draw whose index is prohibited
repeats the `while` loop; `sample_size` is `input_size`, so a draw with
`input_size = 0` takes a remainder by zero.  The result is `params` and
`prohibited_indexes` once `i` reaches `K`; `none` stands for undefined
behaviour and for draws that end before `K` records are selected.  The
count entry is zero when line 122 adds 1 to it, so that `float` sum is exact. -/
def initLoop (K input_size : Nat) (samples : List Sample) :
    List Nat → Nat → List Nat → List ℚ → Option (List ℚ × List Nat)
  | [], i, prohibited_indexes, params =>
    if K ≤ i then some (params, prohibited_indexes) else none
  | r :: draws, i, prohibited_indexes, params =>
    if K ≤ i then some (params, prohibited_indexes)
    else if input_size = 0 then none
    else
      let index := r % input_size
      if index ∈ prohibited_indexes then
        initLoop K input_size samples draws i prohibited_indexes params
      else
        match samples[index]? with
        | none => none
        | some sample =>
          match writeSample sample.keys sample.values (i * input_size) params with
          | none => none
          | some params =>
            match params[K * input_size + i]? with
            | none => none
            | some count =>
              initLoop K input_size samples draws (i + 1) (prohibited_indexes ++ [index])
                (params.set (K * input_size + i) (count + 1))

/-- The branch of `KMeans::Init` taken by worker 0 (lines 96-125): `samples`
is the window of `sample_size = input_size` records delivered by
`train_data_->Read`.  The result is the vector handed to `table_->Add` (the
other workers add zeros, so it is the initial model) together with the record
indices selected, in the order of the centroid slots. -/
def Init (K input_size : Nat) (samples : List Sample) (draws : List Nat) :
    Option (List ℚ × List Nat) :=
  initLoop K input_size samples draws 0 [] (List.replicate (input_size * K + K) 0)

/-! ## Specification-side notions -/

/-- Dense expansion of a sparse record: the value paired with key `d`, and
`0` when `d` is not a key. -/
def denseAt : List Nat → List ℚ → Nat → ℚ
  | k :: ks, v :: vs, d => if k = d then v else denseAt ks vs d
  | _, _, _ => 0

/-- Squared Euclidean distance between centroid `i` of `params` and the dense
expansion of `sample`, over `num_features` dimensions, in exact arithmetic. -/
def sqDist (params : List ℚ) (num_features i : Nat) (sample : Sample) : ℚ :=
  ((List.range num_features).map
    (fun d => (params.getD (i * num_features + d) 0 - denseAt sample.keys sample.values d) ^ 2)).sum

/-- Dimension `d` of the difference between centroid `i` and the sample as
the code forms it: the `float` difference with the sample's value where `d` is
a key, the centroid's entry itself where it is not. -/
def floatDiff (params : List ℚ) (num_features i : Nat) (sample : Sample) (d : Nat) : Option ℚ :=
  if d ∈ sample.keys then
    fsub32 (params.getD (i * num_features + d) 0) (denseAt sample.keys sample.values d)
  else some (params.getD (i * num_features + d) 0)

/-- The `double` sum of the `float` squares of the first `d` dimensions of
`floatDiff`, added in the order of the dimensions. -/
def floatSqSum (params : List ℚ) (num_features i : Nat) (sample : Sample) : Nat → Option ℚ
  | 0 => some 0
  | d + 1 =>
    match floatSqSum params num_features i sample d with
    | none => none
    | some acc =>
      match floatDiff params num_features i sample d with
      | none => none
      | some x =>
        match fmul32 x x with
        | none => none
        | some p => fadd64 acc p

/-- Squared distance between centroid `i` and the dense expansion of the
sample in the floating-point arithmetic of the code: differences and squares
in `float`, their sum in `double`, the result stored in a `float`. -/
def floatSqDist (params : List ℚ) (num_features i : Nat) (sample : Sample) : Option ℚ :=
  match floatSqSum params num_features i sample num_features with
  | none => none
  | some acc => fl32 acc

/-- The centroid ids that the per-sample loop assigns to the samples of a
mini-batch, in batch order. -/
def assignedIds (K input_size : Nat) (learning_rate_coef : ℚ) :
    List ℚ → List Sample → Option (List Int)
  | _, [] => some []
  | step_sum, sample :: rest =>
    match get_nearest_center sample K step_sum input_size,
        trainSample K input_size learning_rate_coef step_sum sample with
    | some (id, _), some step_sum =>
      match assignedIds K input_size learning_rate_coef step_sum rest with
      | none => none
      | some ids => some (id :: ids)
    | _, _ => none

/-! ## Partition: lemmas -/

theorem Load_eq (t n w : Int) (hn : 1 ≤ n) :
    Load t n w = some (partStart t n w, partLen t n w) := by
  have h0 : n ≠ 0 := by omega
  unfold Load partStart partLen
  simp only [h0, if_false]
  split <;> rfl

theorem tdiv_nonneg_of (t n : Int) (ht : 0 ≤ t) (hn : 1 ≤ n) : 0 ≤ Int.tdiv t n :=
  Int.tdiv_nonneg ht (by omega)

theorem partLen_nonneg (t n w : Int) (ht : 0 ≤ t) (hn : 1 ≤ n) : 0 ≤ partLen t n w := by
  have := tdiv_nonneg_of t n ht hn
  unfold partLen
  split <;> omega

theorem partStart_succ (t n w : Int) : partStart t n (w + 1) = partStart t n w + partLen t n w := by
  unfold partStart partLen
  by_cases h1 : w + 1 < Int.tmod t n
  · have h2 : w < Int.tmod t n := by omega
    rw [if_pos h1, if_pos h2, if_pos h2]; ring
  · by_cases h2 : w < Int.tmod t n
    · have h3 : Int.tmod t n = w + 1 := by omega
      rw [if_neg h1, if_pos h2, if_pos h2, h3]; ring
    · rw [if_neg h1, if_neg h2, if_neg h2]; ring

theorem partStart_total (t n : Int) : partStart t n n = t ∨ n < Int.tmod t n := by
  by_cases h : n < Int.tmod t n
  · exact Or.inr h
  · left
    unfold partStart
    rw [if_neg h]
    have := Int.tmod_add_tdiv t n
    linarith

theorem partStart_natStep (t n : Int) (ht : 0 ≤ t) (hn : 1 ≤ n) (a b : Nat) (hab : a ≤ b) :
    partStart t n a ≤ partStart t n b := by
  induction b with
  | zero =>
    have : a = 0 := by omega
    subst this; exact le_refl _
  | succ b ih =>
    by_cases h : a = b + 1
    · subst h; exact le_refl _
    · have h1 := ih (by omega)
      have h2 := partStart_succ t n b
      have h3 := partLen_nonneg t n b ht hn
      push_cast
      omega

theorem partStart_mono (t n : Int) (ht : 0 ≤ t) (hn : 1 ≤ n) (a b : Int) (ha : 0 ≤ a)
    (hab : a ≤ b) : partStart t n a ≤ partStart t n b := by
  have h := partStart_natStep t n ht hn a.toNat b.toNat (by omega)
  have e1 : ((a.toNat : Nat) : Int) = a := Int.toNat_of_nonneg ha
  have e2 : ((b.toNat : Nat) : Int) = b := Int.toNat_of_nonneg (by omega)
  rw [e1, e2] at h
  exact h

theorem partStart_zero (t n : Int) (ht : 0 ≤ t) : partStart t n 0 = 0 := by
  have := Int.tmod_nonneg n ht
  unfold partStart
  split <;> omega

theorem partStart_cover (t n : Int) (ht : 0 ≤ t) (k : Nat) (r : Int) (hr0 : 0 ≤ r)
    (hr : r < partStart t n k) :
    ∃ w : Nat, w < k ∧ partStart t n w ≤ r ∧ r < partStart t n w + partLen t n w := by
  induction k with
  | zero =>
    exfalso
    have := partStart_zero t n ht
    simp only [Nat.cast_zero] at hr
    omega
  | succ k ih =>
    by_cases h : r < partStart t n k
    · obtain ⟨w, hw, h1, h2⟩ := ih h
      exact ⟨w, by omega, h1, h2⟩
    · refine ⟨k, by omega, by omega, ?_⟩
      have := partStart_succ t n k
      push_cast at hr
      omega

/-- For a worker id in range every intermediate value of `Load` lies in
`[0, total_size]`, so the `int` arithmetic of the source does not overflow and
agrees with the unbounded `Int` arithmetic of the embedding. -/
theorem Load_values_bounded (t n w : Int) (ht : 0 ≤ t) (hn : 1 ≤ n) (hw0 : 0 ≤ w)
    (hw : w < n) :
    0 ≤ Int.tdiv t n ∧ Int.tdiv t n ≤ t ∧ 0 ≤ Int.tmod t n ∧ Int.tmod t n ≤ t ∧
      0 ≤ w * Int.tdiv t n ∧ w * Int.tdiv t n ≤ t ∧
      (w < Int.tmod t n → Int.tdiv t n + 1 ≤ t ∧ w * (Int.tdiv t n + 1) ≤ t) ∧
      0 ≤ partStart t n w ∧ partStart t n w ≤ t := by
  have hq := tdiv_nonneg_of t n ht hn
  have hr := Int.tmod_nonneg n ht
  have hrn : Int.tmod t n < n := Int.tmod_lt_of_pos t (by omega)
  have he := Int.tmod_add_tdiv t n
  have hnq : Int.tdiv t n ≤ n * Int.tdiv t n := by nlinarith
  have hwq : w * Int.tdiv t n ≤ n * Int.tdiv t n := by nlinarith
  have hwq0 : 0 ≤ w * Int.tdiv t n := Int.mul_nonneg hw0 hq
  have htot : partStart t n n = t := by
    rcases partStart_total t n with h | h
    · exact h
    · omega
  have hs0 := partStart_mono t n ht hn 0 w (le_refl _) hw0
  rw [partStart_zero t n ht] at hs0
  have hs1 := partStart_mono t n ht hn w n hw0 (by omega)
  rw [htot] at hs1
  refine ⟨hq, by omega, hr, by omega, hwq0, by omega, fun hlt => ⟨by omega, ?_⟩, hs0, hs1⟩
  have : partStart t n w = w * (Int.tdiv t n + 1) := by
    unfold partStart; rw [if_pos hlt]
  rw [← this]; exact hs1

/-- C1: for `total_size ≥ 0` and `num_workers ≥ 1`, `KMeans::Load` yields for
every worker an `(offset, length)` pair such that `offset 0 = 0`, each
worker's range starts where the previous one ends, the last range ends at
`total_size`, the ranges are pairwise disjoint, and a record index lies in
`[0, total_size)` exactly when it lies in the range of some worker. -/
theorem Load_partition_exact (total_size num_workers : Int)
    (ht : 0 ≤ total_size) (hn : 1 ≤ num_workers) :
    ∃ off len : Int → Int,
      (∀ w, Load total_size num_workers w = some (off w, len w)) ∧
      off 0 = 0 ∧
      (∀ w, 0 ≤ w → w + 1 < num_workers → off (w + 1) = off w + len w) ∧
      off (num_workers - 1) + len (num_workers - 1) = total_size ∧
      (∀ w, 0 ≤ w → w < num_workers → 0 ≤ len w) ∧
      (∀ w1 w2, 0 ≤ w1 → w1 < w2 → w2 < num_workers → off w1 + len w1 ≤ off w2) ∧
      (∀ r, (0 ≤ r ∧ r < total_size) ↔
        ∃ w, 0 ≤ w ∧ w < num_workers ∧ off w ≤ r ∧ r < off w + len w) := by
  have hrem : Int.tmod total_size num_workers < num_workers :=
    Int.tmod_lt_of_pos total_size (by omega)
  have htot : partStart total_size num_workers num_workers = total_size := by
    rcases partStart_total total_size num_workers with h | h
    · exact h
    · omega
  refine ⟨partStart total_size num_workers, partLen total_size num_workers,
    fun w => Load_eq _ _ w hn, partStart_zero _ _ ht, fun w _ _ => partStart_succ _ _ w,
    ?_, fun w _ _ => partLen_nonneg _ _ w ht hn, ?_, ?_⟩
  · rw [← partStart_succ]
    simpa using htot
  · intro w1 w2 h1 h12 _
    rw [← partStart_succ]
    exact partStart_mono _ _ ht hn _ _ (by omega) (by omega)
  · intro r
    constructor
    · rintro ⟨hr0, hr⟩
      have hk : ((num_workers.toNat : Nat) : Int) = num_workers :=
        Int.toNat_of_nonneg (by omega)
      obtain ⟨w, hw, h1, h2⟩ :=
        partStart_cover total_size num_workers ht num_workers.toNat r hr0
          (by rw [hk, htot]; exact hr)
      exact ⟨w, by omega, by omega, h1, h2⟩
    · rintro ⟨w, hw0, hw, h1, h2⟩
      have h0 := partStart_mono total_size num_workers ht hn 0 w (le_refl _) hw0
      rw [partStart_zero _ _ ht] at h0
      rw [← partStart_succ] at h2
      have h3 := partStart_mono total_size num_workers ht hn (w + 1) num_workers
        (by omega) (by omega)
      rw [htot] at h3
      omega

/-- Witness of C1 at `total_size = 10`, `num_workers = 3`. -/
theorem Load_partition_exact_witness :
    (0 : Int) ≤ 10 ∧ (1 : Int) ≤ 3 ∧
    ∃ off len : Int → Int,
      (∀ w, Load 10 3 w = some (off w, len w)) ∧
      off 0 = 0 ∧
      (∀ w, 0 ≤ w → w + 1 < 3 → off (w + 1) = off w + len w) ∧
      off (3 - 1) + len (3 - 1) = 10 ∧
      (∀ w, 0 ≤ w → w < 3 → 0 ≤ len w) ∧
      (∀ w1 w2, 0 ≤ w1 → w1 < w2 → w2 < 3 → off w1 + len w1 ≤ off w2) ∧
      (∀ r, (0 ≤ r ∧ r < 10) ↔
        ∃ w, 0 ≤ w ∧ w < 3 ∧ off w ≤ r ∧ r < off w + len w) :=
  ⟨by decide, by decide, Load_partition_exact 10 3 (by decide) (by decide)⟩

/-! ## Partition in 32-bit arithmetic and the `DataStore` constructor -/

theorem int32_some (x : Int) (h1 : INT_MIN ≤ x) (h2 : x ≤ INT_MAX) : int32 x = some x := by
  unfold int32
  rw [if_pos ⟨h1, h2⟩]

/-- On the inputs of a run (`0 ≤ id < num_workers`, a non-negative `int`
record count) the 32-bit computation meets no overflow and builds the
`DataStore` on the pair that `Load` computes over unbounded integers. -/
theorem LoadStore_in_range (t n w : Int) (ht : 0 ≤ t) (htm : t ≤ INT_MAX) (hn : 1 ≤ n)
    (hw0 : 0 ≤ w) (hw : w < n) :
    LoadStore t n w = some (LoadOutcome.constructed (partStart t n w) (partLen t n w)) := by
  obtain ⟨hq, _, hr, _, hwq0, hwq, hbr, hs0, hs1⟩ := Load_values_bounded t n w ht hn hw0 hw
  have hmin : INT_MIN ≤ 0 := by decide
  have hn0 : n ≠ 0 := by omega
  have hnot : ¬ (t = INT_MIN ∧ n = -1) := by omega
  unfold LoadStore partStart partLen
  simp only [hn0, if_false, hnot]
  by_cases hlt : w < Int.tmod t n
  · obtain ⟨h1, h2⟩ := hbr hlt
    have hprod : 0 ≤ w * (Int.tdiv t n + 1) := Int.mul_nonneg hw0 (by omega)
    rw [if_pos hlt, if_pos hlt, if_pos hlt, int32_some _ (by omega) (by omega)]
    simp only
    rw [int32_some _ (by omega) (by omega)]
    simp only [newDataStore]
    rw [if_neg (by omega)]
  · have hp : partStart t n w = w * Int.tdiv t n + Int.tmod t n := by
      unfold partStart; rw [if_neg hlt]
    rw [if_neg hlt, if_neg hlt, if_neg hlt, int32_some _ (by omega) (by omega)]
    simp only
    rw [int32_some _ (by omega) (by omega)]
    simp only [newDataStore]
    rw [if_neg (by omega)]

/-- C11 fails as stated: with 10 records and 3 workers the worker ids `5` and
`-1`, both outside `[0, 3)`, get a `DataStore` on `(16, 3)` and on `(-4, 4)`;
and with 1 record and `num_workers = -2` worker `0` gets one on `(0, 1)`.  No
error is reported. -/
theorem LoadStore_ignores_worker_range :
    LoadStore 10 3 5 = some (LoadOutcome.constructed 16 3) ∧
      LoadStore 10 3 (-1) = some (LoadOutcome.constructed (-4) 4) ∧
      LoadStore 1 (-2) 0 = some (LoadOutcome.constructed 0 1) := by
  decide

/-- C11, amended: `Load` does not check its inputs.  For a record count in
`[0, INT_MAX)`, `num_workers ≥ 1` and any worker id whose product with
`base + 1` is an `int`, it builds the `DataStore` on the pair of the partition
formulas; the length is non-negative, and the range lies past the records for
an id at or above `num_workers` and before record 0 for a negative id.  An
error arises only as the `length_error` of the `DataStore` constructor, and
only for a negative `num_workers`. -/
theorem LoadStore_no_validation (total_size : Int) (ht : 0 ≤ total_size)
    (htm : total_size < INT_MAX) :
    (∀ num_workers id : Int, 1 ≤ num_workers →
      INT_MIN ≤ id * (Int.tdiv total_size num_workers + 1) →
      id * (Int.tdiv total_size num_workers + 1) ≤ INT_MAX →
      ∃ off len, LoadStore total_size num_workers id = some (LoadOutcome.constructed off len) ∧
        Load total_size num_workers id = some (off, len) ∧ 0 ≤ len ∧
        (num_workers ≤ id → total_size ≤ off) ∧ (id < 0 → off + len ≤ 0)) ∧
    (∀ num_workers id : Int,
      LoadStore total_size num_workers id = some LoadOutcome.length_error → num_workers < 0) := by
  have hmin : INT_MIN ≤ 0 := by decide
  constructor
  · intro n w hn hlo hhi
    have hq := tdiv_nonneg_of total_size n ht hn
    have hr := Int.tmod_nonneg n ht
    have hrn : Int.tmod total_size n < n := Int.tmod_lt_of_pos total_size (by omega)
    have he := Int.tmod_add_tdiv total_size n
    have hqt : Int.tdiv total_size n ≤ total_size := by nlinarith
    have hn0 : n ≠ 0 := by omega
    have hnot : ¬ (total_size = INT_MIN ∧ n = -1) := by omega
    refine ⟨partStart total_size n w, partLen total_size n w, ?_, Load_eq _ _ w hn,
      partLen_nonneg _ _ w ht hn, ?_, ?_⟩
    · unfold LoadStore partStart partLen
      simp only [hn0, if_false, hnot]
      by_cases hlt : w < Int.tmod total_size n
      · rw [if_pos hlt, if_pos hlt, if_pos hlt, int32_some _ (by omega) (by omega)]
        simp only
        rw [int32_some _ hlo hhi]
        simp only [newDataStore]
        rw [if_neg (by omega)]
      · have hw0 : 0 ≤ w := by omega
        have hprod : 0 ≤ w * Int.tdiv total_size n := Int.mul_nonneg hw0 hq
        have hexp : w * (Int.tdiv total_size n + 1) = w * Int.tdiv total_size n + w := by ring
        rw [if_neg hlt, if_neg hlt, if_neg hlt, int32_some _ (by omega) (by omega)]
        simp only
        rw [int32_some _ (by omega) (by omega)]
        simp only [newDataStore]
        rw [if_neg (by omega)]
    · intro hge
      have htot : partStart total_size n n = total_size := by
        rcases partStart_total total_size n with h | h
        · exact h
        · omega
      have := partStart_mono total_size n ht hn n w (by omega) hge
      omega
    · intro hneg
      have hlt : w < Int.tmod total_size n := by omega
      unfold partStart partLen
      rw [if_pos hlt, if_pos hlt]
      nlinarith
  · intro n w h
    by_contra hcon
    have hn : 0 ≤ n := by omega
    unfold LoadStore at h
    by_cases hn0 : n = 0
    · simp only [hn0, if_true] at h
      cases h
    · have hn1 : 1 ≤ n := by omega
      have hq := tdiv_nonneg_of total_size n ht hn1
      have hnot : ¬ (total_size = INT_MIN ∧ n = -1) := by omega
      simp only [hn0, if_false, hnot] at h
      split at h
      · split at h
        · cases h
        · rename_i len hlen
          have hlen2 : len = Int.tdiv total_size n + 1 := by
            unfold int32 at hlen
            split at hlen
            · simp only [Option.some.injEq] at hlen; exact hlen.symm
            · cases hlen
          split at h
          · cases h
          · simp only [newDataStore, Option.some.injEq] at h
            rw [if_neg (by omega)] at h
            cases h
      · split at h
        · cases h
        · split at h
          · cases h
          · simp only [newDataStore, Option.some.injEq] at h
            rw [if_neg (by omega)] at h
            cases h

/-- Witness of C11 (amended) at worker id `5` of 3 workers over 10 records. -/
theorem LoadStore_no_validation_witness :
    ∃ off len, LoadStore 10 3 5 = some (LoadOutcome.constructed off len) ∧
      Load 10 3 5 = some (off, len) ∧ 0 ≤ len ∧
      ((3 : Int) ≤ 5 → (10 : Int) ≤ off) ∧ ((5 : Int) < 0 → off + len ≤ 0) :=
  (LoadStore_no_validation 10 (by decide) (by decide)).1 3 5 (by decide) (by decide)
    (by decide)

/-! ## Floating-point arithmetic: lemmas -/

theorem roundTo_zero (prec : Nat) (emin emax : Int) (bits : Nat) :
    roundTo prec emin emax bits 0 = some 0 := by
  unfold roundTo
  rw [if_pos rfl]

theorem fl32_zero : fl32 0 = some 0 := roundTo_zero _ _ _ _

theorem fsub32_self (x : ℚ) : fsub32 x x = some 0 := by
  unfold fsub32
  rw [sub_self]
  exact fl32_zero

theorem pow2_eq_zpow (e : Int) : pow2 e = (2 : ℚ) ^ e := by
  unfold pow2
  by_cases h : 0 ≤ e
  · rw [if_pos h, Nat.cast_pow, Nat.cast_ofNat]
    conv_rhs => rw [← Int.toNat_of_nonneg h]
    rw [zpow_natCast]
  · rw [if_neg h, Nat.cast_pow, Nat.cast_ofNat]
    have hneg : 0 ≤ -e := by omega
    have he : e = -((-e).toNat : Int) := by rw [Int.toNat_of_nonneg hneg]; ring
    conv_rhs => rw [he, zpow_neg, zpow_natCast]
    rw [one_div]

theorem pow2_pos (e : Int) : 0 < pow2 e := by
  rw [pow2_eq_zpow]
  positivity

theorem pow2_mono (a b : Int) (h : a ≤ b) : pow2 a ≤ pow2 b := by
  rw [pow2_eq_zpow, pow2_eq_zpow]
  exact zpow_le_zpow_right₀ (by norm_num) h

/-- The binary search finds the binade: started at an exponent `e0 ≤ emax`
with `2 ^ e0 ≤ a`, over a window that reaches past `emax` or past `a`, it
returns `e` with `2 ^ e ≤ a`, and `a < 2 ^ (e + 1)` unless `e = emax`. -/
theorem expSearch_binade (a : ℚ) (emax : Int) (j : Nat) (e0 : Int)
    (hlow : pow2 e0 ≤ a) (he0 : e0 ≤ emax)
    (hwin : emax < e0 + 2 ^ j ∨ a < pow2 (e0 + 2 ^ j)) :
    pow2 (expSearch a emax j e0) ≤ a ∧ expSearch a emax j e0 ≤ emax ∧
      (expSearch a emax j e0 = emax ∨ a < pow2 (expSearch a emax j e0 + 1)) := by
  induction j generalizing e0 with
  | zero =>
    simp only [expSearch]
    refine ⟨hlow, he0, ?_⟩
    rcases hwin with h | h
    · left
      simp only [pow_zero] at h
      omega
    · right
      simpa using h
  | succ j ih =>
    have hpow : (2 : Int) ^ (j + 1) = 2 ^ j + 2 ^ j := by ring
    unfold expSearch
    split
    · rename_i hc
      exact ih (e0 + 2 ^ j) hc.2 hc.1 (by
        rcases hwin with h | h
        · left; omega
        · right
          have : e0 + 2 ^ j + 2 ^ j = e0 + 2 ^ (j + 1) := by omega
          rw [this]; exact h)
    · rename_i hc
      refine ih e0 hlow he0 ?_
      by_cases h1 : e0 + 2 ^ j ≤ emax
      · right
        by_contra h2
        exact hc ⟨h1, not_lt.mp h2⟩
      · left; omega

/-- Below the normal range the search stays at `emin`, the exponent of the
subnormal spacing. -/
theorem expSearch_subnormal (a : ℚ) (emax : Int) (j : Nat) (e0 : Int) (h : a < pow2 e0) :
    expSearch a emax j e0 = e0 := by
  induction j generalizing e0 with
  | zero => rfl
  | succ j ih =>
    have hpos : (0 : Int) < 2 ^ j := by positivity
    unfold expSearch
    split
    · rename_i hc
      have := pow2_mono e0 (e0 + 2 ^ j) (by omega)
      exact absurd (lt_of_lt_of_le h (le_trans this hc.2)) (lt_irrefl _)
    · exact ih e0 h

/-- The integer chosen by `roundHalfEven` is within one half of its argument. -/
theorem roundHalfEven_near (m : ℚ) : |(roundHalfEven m : ℚ) - m| ≤ 1 / 2 := by
  have h1 : (⌊m⌋ : ℚ) ≤ m := Int.floor_le m
  have h2 : m < (⌊m⌋ : ℚ) + 1 := Int.lt_floor_add_one m
  unfold roundHalfEven
  split
  · rw [abs_le]; constructor <;> linarith
  · rename_i hlt
    split
    · rw [abs_le]; push_cast; constructor <;> linarith
    · rename_i hgt
      have heq : m - (⌊m⌋ : ℚ) = 1 / 2 := le_antisymm (not_lt.mp hgt) (not_lt.mp hlt)
      split
      · rw [abs_le]; constructor <;> linarith
      · rw [abs_le]; push_cast; constructor <;> linarith

/-- Rounding is to nearest: a finite result of `roundTo` is an integer
multiple of the unit in the last place of the binade of `x` and lies within
half that unit of `x`. -/
theorem roundTo_nearest (prec : Nat) (emin emax : Int) (bits : Nat) (x y : ℚ)
    (h : roundTo prec emin emax bits x = some y) :
    ∃ (e : Int) (k : Int), (x = 0 ∨ e = expSearch (if x < 0 then -x else x) emax bits emin) ∧
      y = (k : ℚ) * pow2 (e - ((prec : Int) - 1)) ∧
      |y - x| ≤ pow2 (e - ((prec : Int) - 1)) / 2 := by
  by_cases hx : x = 0
  · subst hx
    rw [roundTo_zero] at h
    simp only [Option.some.injEq] at h
    subst h
    refine ⟨emin, 0, Or.inl rfl, by simp, ?_⟩
    simp only [sub_self, abs_zero]
    exact le_of_lt (div_pos (pow2_pos _) (by norm_num))
  · unfold roundTo at h
    rw [if_neg hx] at h
    dsimp only at h
    generalize hA : (if x < 0 then -x else x) = a at h
    generalize hU : pow2 (expSearch a emax bits emin - ((prec : Int) - 1)) = u at h
    have hu : 0 < u := by rw [← hU]; exact pow2_pos _
    have hnear := roundHalfEven_near (a / u)
    have hscaled : |(roundHalfEven (a / u) : ℚ) * u - a| ≤ u / 2 := by
      have hrw : (roundHalfEven (a / u) : ℚ) * u - a
          = ((roundHalfEven (a / u) : ℚ) - a / u) * u := by
        field_simp
      rw [hrw, abs_mul, abs_of_pos hu]
      calc _ ≤ 1 / 2 * u := mul_le_mul_of_nonneg_right hnear (le_of_lt hu)
        _ = _ := by ring
    split at h
    · cases h
    · split at h
      · rename_i hneg
        simp only [Option.some.injEq] at h
        subst h
        rw [if_pos hneg] at hA
        refine ⟨expSearch a emax bits emin, -(roundHalfEven (a / u)), Or.inr rfl,
          by rw [hU]; push_cast; ring, ?_⟩
        have : -((roundHalfEven (a / u) : ℚ) * u) - x
            = -((roundHalfEven (a / u) : ℚ) * u - a) := by rw [← hA]; ring
        rw [hU, this, abs_neg]
        exact hscaled
      · rename_i hneg
        simp only [Option.some.injEq] at h
        subst h
        rw [if_neg hneg] at hA
        refine ⟨expSearch a emax bits emin, roundHalfEven (a / u), Or.inr rfl,
          by rw [hU], ?_⟩
        rw [hU, hA]
        exact hscaled

/-! ## Vectors: lemmas -/

theorem slice_some (v : List ℚ) (start len : Nat) (h : start + len ≤ v.length) :
    slice v start len = some ((v.drop start).take len) := by
  unfold slice
  rw [if_pos h]

theorem slice_length (v r : List ℚ) (start len : Nat) (h : slice v start len = some r) :
    r.length = len := by
  unfold slice at h
  split at h
  · cases h
    simp only [List.length_take, List.length_drop]
    omega
  · cases h

theorem slice_getD (v r : List ℚ) (start len d : Nat) (h : slice v start len = some r)
    (hd : d < len) : r.getD d 0 = v.getD (start + d) 0 := by
  unfold slice at h
  split at h
  · cases h
    simp only [List.getD_eq_getElem?_getD, List.getElem?_take, List.getElem?_drop, if_pos hd]
  · cases h

theorem getD_set_self (l : List ℚ) (i : Nat) (x : ℚ) (h : i < l.length) :
    (l.set i x).getD i 0 = x := by
  simp only [List.getD_eq_getElem?_getD, List.getElem?_set_self h, Option.getD_some]

theorem getD_set_ne (l : List ℚ) (i j : Nat) (x : ℚ) (h : i ≠ j) :
    (l.set i x).getD j 0 = l.getD j 0 := by
  simp only [List.getD_eq_getElem?_getD, List.getElem?_set_ne h]

theorem getD_of_getElem? (l : List ℚ) (i : Nat) (x : ℚ) (h : l[i]? = some x) :
    l.getD i 0 = x := by
  simp only [List.getD_eq_getElem?_getD, h, Option.getD_some]

theorem getElem?_of_lt (l : List ℚ) (i : Nat) (h : i < l.length) :
    l[i]? = some (l.getD i 0) := by
  simp only [List.getD_eq_getElem?_getD, List.getElem?_eq_getElem h, Option.getD_some]

theorem denseAt_not_mem (ks : List Nat) (vs : List ℚ) (d : Nat) (h : d ∉ ks) :
    denseAt ks vs d = 0 := by
  induction ks generalizing vs with
  | nil => simp [denseAt]
  | cons k ks ih =>
    cases vs with
    | nil => simp [denseAt]
    | cons v vs =>
      have hk : k ≠ d := fun e => h (by simp [e])
      have hd : d ∉ ks := fun e => h (by simp [e])
      simp only [denseAt, if_neg hk]
      exact ih vs hd

theorem subtractSample_length (ks : List Nat) (vs diff r : List ℚ)
    (h : subtractSample ks vs diff = some r) : r.length = diff.length := by
  induction ks generalizing vs diff with
  | nil =>
    simp only [subtractSample, Option.some.injEq] at h
    rw [← h]
  | cons k ks ih =>
    cases vs with
    | nil => simp [subtractSample] at h
    | cons v vs =>
      simp only [subtractSample] at h
      split at h
      · cases h
      · split at h
        · cases h
        · rw [ih _ _ h, List.length_set]

/-- What the subtraction loop leaves in the vector when it runs through: at a
key the `float` difference with the sample's value, elsewhere the entry as it
was. -/
theorem subtractSample_char (ks : List Nat) (vs diff r : List ℚ)
    (hlen : vs.length = ks.length) (hnd : ks.Nodup)
    (h : subtractSample ks vs diff = some r) :
    r.length = diff.length ∧
      ∀ d, (d ∈ ks → fsub32 (diff.getD d 0) (denseAt ks vs d) = some (r.getD d 0)) ∧
        (d ∉ ks → r.getD d 0 = diff.getD d 0) := by
  induction ks generalizing vs diff with
  | nil =>
    simp only [subtractSample, Option.some.injEq] at h
    subst h
    exact ⟨rfl, fun d => ⟨fun hd => absurd hd (List.not_mem_nil d), fun _ => rfl⟩⟩
  | cons k ks ih =>
    cases vs with
    | nil => simp at hlen
    | cons v vs =>
      rw [List.nodup_cons] at hnd
      simp only [subtractSample] at h
      split at h
      · cases h
      · rename_i x hx
        split at h
        · cases h
        · rename_i y hy
          have hklt : k < diff.length := by
            rcases List.getElem?_eq_some.mp hx with ⟨hh, _⟩
            exact hh
          obtain ⟨hl, hg⟩ := ih vs (diff.set k y) (by simpa using hlen) hnd.2 h
          refine ⟨by rw [hl, List.length_set], fun d => ⟨fun hd => ?_, fun hd => ?_⟩⟩
          · by_cases hdk : k = d
            · subst hdk
              rw [(hg k).2 hnd.1, getD_set_self _ _ _ hklt, getD_of_getElem? _ _ _ hx]
              simp only [denseAt, if_true]
              exact hy
            · have hdks : d ∈ ks := by
                rcases List.mem_cons.mp hd with h1 | h1
                · exact absurd h1.symm hdk
                · exact h1
              have := (hg d).1 hdks
              rw [getD_set_ne _ _ _ _ hdk] at this
              simp only [denseAt, if_neg hdk]
              exact this
          · have hdk : k ≠ d := fun e => hd (by simp [e])
            have hdks : d ∉ ks := fun e => hd (by simp [e])
            rw [(hg d).2 hdks, getD_set_ne _ _ _ _ hdk]

/-- The subtraction loop runs through when the `float` difference with the
sample's value is finite at every key. -/
theorem subtractSample_total (ks : List Nat) (vs diff : List ℚ)
    (hlen : vs.length = ks.length) (hnd : ks.Nodup) (hk : ∀ k ∈ ks, k < diff.length)
    (hsub : ∀ d ∈ ks, ∃ y, fsub32 (diff.getD d 0) (denseAt ks vs d) = some y) :
    ∃ r, subtractSample ks vs diff = some r := by
  induction ks generalizing vs diff with
  | nil => exact ⟨diff, by simp [subtractSample]⟩
  | cons k ks ih =>
    cases vs with
    | nil => simp at hlen
    | cons v vs =>
      rw [List.nodup_cons] at hnd
      have hklt : k < diff.length := hk k (by simp)
      have hx := getElem?_of_lt diff k hklt
      obtain ⟨y, hy⟩ := hsub k (by simp)
      simp only [denseAt, if_true] at hy
      obtain ⟨r, hr⟩ := ih vs (diff.set k y) (by simpa using hlen) hnd.2
        (fun k2 hk2 => by rw [List.length_set]; exact hk k2 (by simp [hk2]))
        (fun d hd => by
          have hdk : k ≠ d := fun e => hnd.1 (e ▸ hd)
          obtain ⟨y2, hy2⟩ := hsub d (by simp [hd])
          simp only [denseAt, if_neg hdk] at hy2
          exact ⟨y2, by rw [getD_set_ne _ _ _ _ hdk]; exact hy2⟩)
      exact ⟨r, by simp only [subtractSample, hx, hy]; exact hr⟩

theorem inner_product_append (l : List ℚ) (x acc : ℚ) :
    inner_product (l ++ [x]) (l ++ [x]) acc =
      match inner_product l l acc with
      | none => none
      | some a =>
        match fmul32 x x with
        | none => none
        | some p => fadd64 a p := by
  induction l generalizing acc with
  | nil =>
    simp only [List.nil_append, inner_product]
    cases fmul32 x x with
    | none => rfl
    | some p =>
      simp only
      cases fadd64 acc p with
      | none => rfl
      | some a => rfl
  | cons y l ih =>
    simp only [List.cons_append, inner_product]
    cases fmul32 y y with
    | none => rfl
    | some p =>
      simp only
      cases fadd64 acc p with
      | none => rfl
      | some a => exact ih a

theorem floatSqSum_defined (params : List ℚ) (nf i : Nat) (s : Sample) (m : Nat) (acc : ℚ)
    (h : floatSqSum params nf i s m = some acc) :
    ∀ d, d < m → ∃ x, floatDiff params nf i s d = some x := by
  induction m generalizing acc with
  | zero => exact fun d hd => absurd hd (Nat.not_lt_zero d)
  | succ m ih =>
    simp only [floatSqSum] at h
    split at h
    · cases h
    · rename_i a ha
      split at h
      · cases h
      · rename_i x hx
        intro d hd
        by_cases hdm : d = m
        · exact ⟨x, by rw [hdm]; exact hx⟩
        · exact ih a ha d (by omega)

theorem inner_product_take (params : List ℚ) (nf i : Nat) (s : Sample) (r : List ℚ)
    (hr : ∀ d, d < r.length → floatDiff params nf i s d = some (r.getD d 0)) (m : Nat)
    (hm : m ≤ r.length) :
    inner_product (r.take m) (r.take m) 0 = floatSqSum params nf i s m := by
  induction m with
  | zero => simp [inner_product, floatSqSum]
  | succ m ih =>
    have hlt : m < r.length := by omega
    have htake : r.take (m + 1) = r.take m ++ [r.getD m 0] := by
      rw [List.take_succ, getElem?_of_lt r m hlt]
      rfl
    rw [htake, inner_product_append, ih (by omega)]
    simp only [floatSqSum, hr m hlt]

/-! ## Nearest centre: lemmas -/

/-- The code's `square_dist` is the squared distance to the dense expansion of
the sample in the floating-point arithmetic of `floatSqDist`, whenever that
one is finite. -/
theorem square_dist_of_floatSqDist (s : Sample) (params : List ℚ) (nf i : Nat) (dist : ℚ)
    (hlen : s.values.length = s.keys.length) (hnd : s.keys.Nodup)
    (hk : ∀ k ∈ s.keys, k < nf) (hp : i * nf + nf ≤ params.length)
    (h : floatSqDist params nf i s = some dist) :
    square_dist s params nf i = some dist := by
  unfold floatSqDist at h
  split at h
  · cases h
  · rename_i acc hacc
    have hdef := floatSqSum_defined params nf i s nf acc hacc
    have hs := slice_some params (i * nf) nf hp
    have hsl := slice_length _ _ _ _ hs
    have hsub : ∀ d ∈ s.keys, ∃ y,
        fsub32 (((params.drop (i * nf)).take nf).getD d 0) (denseAt s.keys s.values d)
          = some y := by
      intro d hd
      obtain ⟨x, hx⟩ := hdef d (hk d hd)
      unfold floatDiff at hx
      rw [if_pos hd] at hx
      exact ⟨x, by rw [slice_getD _ _ _ _ d hs (hk d hd)]; exact hx⟩
    obtain ⟨r, hr⟩ := subtractSample_total s.keys s.values _ hlen hnd
      (fun k hk2 => by rw [hsl]; exact hk k hk2) hsub
    obtain ⟨hrl, hrg⟩ := subtractSample_char s.keys s.values _ r hlen hnd hr
    have hrd : ∀ d, d < r.length → floatDiff params nf i s d = some (r.getD d 0) := by
      intro d hd
      have hdn : d < nf := by omega
      unfold floatDiff
      by_cases hmem : d ∈ s.keys
      · rw [if_pos hmem]
        have := (hrg d).1 hmem
        rw [slice_getD _ _ _ _ d hs hdn] at this
        exact this
      · rw [if_neg hmem, (hrg d).2 hmem, slice_getD _ _ _ _ d hs hdn]
    have hip := inner_product_take params nf i s r hrd r.length (le_refl _)
    rw [List.take_length, hrl, hsl, hacc] at hip
    simp only [square_dist, hs, hr, hip]
    exact h

/-- Loop invariant of `get_nearest_center` when every cluster `j < K` has a
defined squared distance `dist j`: after `k` rounds either nothing was below
`FLT_MAX`, or the state holds the lowest-indexed minimum of the first `k`
distances. -/
theorem nearestLoop_inv (s : Sample) (params : List ℚ) (nf K : Nat) (dist : Nat → ℚ)
    (hd : ∀ j, j < K → square_dist s params nf j = some (dist j)) (k : Nat) (hk : k ≤ K) :
    ∃ id m, nearestLoop s params nf k = some (id, m) ∧
      ((id = -1 ∧ m = FLT_MAX ∧ ∀ j, j < k → FLT_MAX ≤ dist j) ∨
       (∃ c : Nat, id = (c : Int) ∧ c < k ∧ m = dist c ∧ m < FLT_MAX ∧
          (∀ j, j < k → m ≤ dist j) ∧ ∀ j, j < c → m < dist j)) := by
  induction k with
  | zero =>
    exact ⟨-1, FLT_MAX, rfl, Or.inl ⟨rfl, rfl, fun j hj => absurd hj (Nat.not_lt_zero j)⟩⟩
  | succ k ih =>
    obtain ⟨id, m, hloop, hinv⟩ := ih (by omega)
    have hdk := hd k (by omega)
    by_cases hlt : dist k < m
    · refine ⟨(k : Int), dist k, ?_, Or.inr ⟨k, rfl, by omega, rfl, ?_, ?_, ?_⟩⟩
      · simp only [nearestLoop, hloop, hdk, if_pos hlt]
      · rcases hinv with ⟨_, hm, _⟩ | ⟨c, _, _, _, hm, _, _⟩
        · rw [← hm]; exact hlt
        · exact lt_trans hlt hm
      · intro j hj
        by_cases hjk : j = k
        · rw [hjk]
        · have hj2 : j < k := by omega
          rcases hinv with ⟨_, hm, hall⟩ | ⟨c, _, _, _, _, hall, _⟩
          · have := hall j hj2
            rw [← hm] at this
            exact le_of_lt (lt_of_lt_of_le hlt this)
          · exact le_of_lt (lt_of_lt_of_le hlt (hall j hj2))
      · intro j hj
        rcases hinv with ⟨_, hm, hall⟩ | ⟨c, _, _, _, _, hall, _⟩
        · have := hall j hj
          rw [← hm] at this
          exact lt_of_lt_of_le hlt this
        · exact lt_of_lt_of_le hlt (hall j hj)
    · have hle : m ≤ dist k := not_lt.mp hlt
      refine ⟨id, m, ?_, ?_⟩
      · simp only [nearestLoop, hloop, hdk, if_neg hlt]
      · rcases hinv with ⟨hid, hm, hall⟩ | ⟨c, hid, hck, hmc, hm, hall, hlow⟩
        · refine Or.inl ⟨hid, hm, fun j hj => ?_⟩
          by_cases hjk : j = k
          · rw [hjk, ← hm]; exact hle
          · exact hall j (by omega)
        · refine Or.inr ⟨c, hid, by omega, hmc, hm, fun j hj => ?_, hlow⟩
          by_cases hjk : j = k
          · rw [hjk]; exact hle
          · exact hall j (by omega)

theorem centroid_in_bounds (K nf i len : Nat) (hi : i < K) (hp : K * nf ≤ len) :
    i * nf + nf ≤ len := by
  have h : (i + 1) * nf ≤ K * nf := Nat.mul_le_mul_right nf (by omega)
  rw [Nat.add_mul, Nat.one_mul] at h
  omega

/-- When no computed distance is below `FLT_MAX` the loop never assigns
`id_cluster_center`: two equal centroids `(4095, 90, 9, 3) * 2^52` are at
computed (and exact) squared distance `FLT_MAX` from the all-zero sample, and
the function returns the id `-1`. -/
theorem get_nearest_center_no_center :
    floatSqDist [4095 * 2 ^ 52, 90 * 2 ^ 52, 9 * 2 ^ 52, 3 * 2 ^ 52,
        4095 * 2 ^ 52, 90 * 2 ^ 52, 9 * 2 ^ 52, 3 * 2 ^ 52, 1, 1] 4 0 ⟨[], [], 0, 1⟩
      = some FLT_MAX ∧
    get_nearest_center ⟨[], [], 0, 1⟩ 2
        [4095 * 2 ^ 52, 90 * 2 ^ 52, 9 * 2 ^ 52, 3 * 2 ^ 52,
          4095 * 2 ^ 52, 90 * 2 ^ 52, 9 * 2 ^ 52, 3 * 2 ^ 52, 1, 1] 4
      = some (-1, FLT_MAX) := by
  decide!

/-- C2 fails as stated: centroids `1` and `-1` in one dimension and the sample
value `-2^-30` (a `float`).  Both exact squared distances are below `FLT_MAX`
and centroid 1 is strictly nearer, but both `float` differences round to
magnitude 1, so the function returns centroid 0 with `d = 1`, which is neither
the squared distance to centroid 0 nor at most the one to centroid 1. -/
theorem nearest_center_rounding_picks_farther :
    fl32 (-1 / 2 ^ 30) = some (-1 / 2 ^ 30) ∧
      sqDist [1, -1, 1, 1] 1 0 ⟨[0], [-1 / 2 ^ 30], 0, 1⟩ < FLT_MAX ∧
      sqDist [1, -1, 1, 1] 1 1 ⟨[0], [-1 / 2 ^ 30], 0, 1⟩ < FLT_MAX ∧
      sqDist [1, -1, 1, 1] 1 1 ⟨[0], [-1 / 2 ^ 30], 0, 1⟩
        < sqDist [1, -1, 1, 1] 1 0 ⟨[0], [-1 / 2 ^ 30], 0, 1⟩ ∧
      get_nearest_center ⟨[0], [-1 / 2 ^ 30], 0, 1⟩ 2 [1, -1, 1, 1] 1 = some (0, 1) ∧
      sqDist [1, -1, 1, 1] 1 0 ⟨[0], [-1 / 2 ^ 30], 0, 1⟩ ≠ 1 ∧
      ¬ (1 ≤ sqDist [1, -1, 1, 1] 1 1 ⟨[0], [-1 / 2 ^ 30], 0, 1⟩) := by
  decide!

/-- C2, amended: for a sample with one value per key, unique keys all below
`num_features`, `K ≥ 1` and a model holding `K` centroids whose squared
distances to the sample, as computed in the floating-point arithmetic of the
code (`dist j` for centroid `j`), are all below `FLT_MAX`, `get_nearest_center`
returns `(id, d)` with `0 ≤ id < K`, `d` the computed squared distance of
centroid `id`, and `d` at most the computed squared distance of each of the
`K` centroids. -/
theorem get_nearest_center_min (s : Sample) (K : Nat) (params : List ℚ) (nf : Nat)
    (dist : Nat → ℚ)
    (hlen : s.values.length = s.keys.length) (hnd : s.keys.Nodup)
    (hk : ∀ k ∈ s.keys, k < nf) (hK : 1 ≤ K) (hp : K * nf ≤ params.length)
    (hdist : ∀ j, j < K → floatSqDist params nf j s = some (dist j))
    (hmax : ∀ j, j < K → dist j < FLT_MAX) :
    ∃ c : Nat, c < K ∧
      get_nearest_center s K params nf = some ((c : Int), dist c) ∧
      floatSqDist params nf c s = some (dist c) ∧
      ∀ j, j < K → dist c ≤ dist j := by
  have hd : ∀ j, j < K → square_dist s params nf j = some (dist j) :=
    fun j hj => square_dist_of_floatSqDist s params nf j (dist j) hlen hnd hk
      (centroid_in_bounds K nf j _ hj hp) (hdist j hj)
  obtain ⟨id, m, hloop, hinv⟩ := nearestLoop_inv s params nf K dist hd K (le_refl K)
  rcases hinv with ⟨_, _, hall⟩ | ⟨c, hid, hc, hm, _, hall, _⟩
  · exact absurd (hmax 0 (by omega)) (not_lt.mpr (hall 0 (by omega)))
  · refine ⟨c, hc, ?_, hdist c hc, fun j hj => ?_⟩
    · unfold get_nearest_center
      rw [hloop, hid, hm]
    · have := hall j hj
      rw [hm] at this
      exact this

/-- Witness of C2 (amended): two one-dimensional centroids `0` and `5`, sample
value `4`; the computed distances are `16` and `1`. -/
theorem get_nearest_center_min_witness :
    ∃ c : Nat, c < 2 ∧
      get_nearest_center ⟨[0], [4], 0, 1⟩ 2 [0, 5, 1, 1] 1
        = some ((c : Int), (fun j => if j = 0 then (16 : ℚ) else 1) c) ∧
      floatSqDist [0, 5, 1, 1] 1 c ⟨[0], [4], 0, 1⟩
        = some ((fun j => if j = 0 then (16 : ℚ) else 1) c) ∧
      ∀ j, j < 2 → (fun j => if j = 0 then (16 : ℚ) else 1) c
        ≤ (fun j => if j = 0 then (16 : ℚ) else 1) j :=
  get_nearest_center_min ⟨[0], [4], 0, 1⟩ 2 [0, 5, 1, 1] 1
    (fun j => if j = 0 then (16 : ℚ) else 1) rfl (by decide) (by decide) (by decide)
    (by decide)
    (by
      intro j hj
      interval_cases j <;> decide!)
    (by
      intro j hj
      interval_cases j <;> norm_num [FLT_MAX])

theorem subtractModel_self (a : List ℚ) :
    subtractModel a a = some (List.replicate a.length 0) := by
  induction a with
  | nil => rfl
  | cons x a ih =>
    simp only [subtractModel, fsub32_self, ih, List.length_cons, List.replicate_succ]

/-! ## Training iteration: the delta -/

/-- C5: on an empty mini-batch the iteration hands to `Add` the vector of
`K * input_size + K` zeros. -/
theorem trainIteration_empty (K n : Nat) (lr : ℚ) (M : List ℚ) (hM : M.length = K * n + K) :
    trainIteration K n lr M [] = some (List.replicate (K * n + K) 0) := by
  simp only [trainIteration, trainBatch, subtractModel_self, hM]

/-- Witness of C5 at `K = 2`, `input_size = 1`. -/
theorem trainIteration_empty_witness :
    trainIteration 2 1 1 [3, 7, 1, 1] [] = some (List.replicate (2 * 1 + 2) 0) :=
  trainIteration_empty 2 1 1 [3, 7, 1, 1] rfl

/-! ## Dimensions outside the sample's keys -/

/-- C9: `K = 2`, `input_size = 2`, centroids `(0,0)` and `(10,10)` with seed
counts 1, `learning_rate_coef = 1`, and the mini-batch `(0,0), (0,1),
(10,10), (10,11)`.  The iteration assigns the samples to centroids
`0, 0, 1, 1`; in `float` arithmetic the updated centroids are
`(0, 11184811 / 2^25)` and `(10, 10835285 / 2^20)` and the vector handed to
`Add` is `[0, 11184811 / 2^25, 0, 349525 / 2^20, 2, 2]`; the updated centroid 0
is strictly closer to `(0, 1/2)` than `(0,0)` was, and the updated centroid 1
strictly closer to `(10, 21/2)` than `(10,10)` was. -/
theorem train_example :
    assignedIds 2 2 1 [0, 0, 10, 10, 1, 1]
        [⟨[0, 1], [0, 0], 0, 1⟩, ⟨[0, 1], [0, 1], 0, 1⟩, ⟨[0, 1], [10, 10], 0, 1⟩,
          ⟨[0, 1], [10, 11], 0, 1⟩] = some [0, 0, 1, 1] ∧
    ∃ work delta,
      trainBatch 2 2 1 [0, 0, 10, 10, 1, 1]
        [⟨[0, 1], [0, 0], 0, 1⟩, ⟨[0, 1], [0, 1], 0, 1⟩, ⟨[0, 1], [10, 10], 0, 1⟩,
          ⟨[0, 1], [10, 11], 0, 1⟩] = some work ∧
      trainIteration 2 2 1 [0, 0, 10, 10, 1, 1]
        [⟨[0, 1], [0, 0], 0, 1⟩, ⟨[0, 1], [0, 1], 0, 1⟩, ⟨[0, 1], [10, 10], 0, 1⟩,
          ⟨[0, 1], [10, 11], 0, 1⟩] = some delta ∧
      work = [0, 11184811 / 33554432, 10, 10835285 / 1048576, 3, 3] ∧
      delta = [0, 11184811 / 33554432, 0, 349525 / 1048576, 2, 2] ∧
      sqDist work 2 0 ⟨[0, 1], [0, 1 / 2], 0, 1⟩
        < sqDist [0, 0, 10, 10, 1, 1] 2 0 ⟨[0, 1], [0, 1 / 2], 0, 1⟩ ∧
      sqDist work 2 1 ⟨[0, 1], [10, 21 / 2], 0, 1⟩
        < sqDist [0, 0, 10, 10, 1, 1] 2 1 ⟨[0, 1], [10, 21 / 2], 0, 1⟩ := by
  have hbatch : trainBatch 2 2 1 [0, 0, 10, 10, 1, 1]
      [⟨[0, 1], [0, 0], 0, 1⟩, ⟨[0, 1], [0, 1], 0, 1⟩, ⟨[0, 1], [10, 10], 0, 1⟩,
        ⟨[0, 1], [10, 11], 0, 1⟩]
      = some [0, 11184811 / 33554432, 10, 10835285 / 1048576, 3, 3] := by
    decide!
  refine ⟨by decide!, [0, 11184811 / 33554432, 10, 10835285 / 1048576, 3, 3],
    [0, 11184811 / 33554432, 0, 349525 / 1048576, 2, 2], hbatch, ?_, rfl, rfl,
    by decide!, by decide!⟩
  simp only [trainIteration, hbatch]
  decide!

/-! ## Evaluation -/

/-- C10 at `K = 3`: the count vector of `test_error` has 2 entries whatever
`K` is; with three one-dimensional centroids `0, 5, 10` the record of value
`10` gets id 2, the increment `count[2]++` is outside the vector, and even on
an empty dataset the final loop reads `count[2]`. -/
theorem test_error_count_fixed :
    errorLoop [0, 5, 10, 1, 1, 1] [⟨[0], [10], 0, 1⟩] 3 1 0 = some (0, [0, 0]) ∧
      get_nearest_center ⟨[0], [10], 0, 1⟩ 3 [0, 5, 10, 1, 1, 1] 1 = some (2, 0) ∧
      errorLoop [0, 5, 10, 1, 1, 1] [⟨[0], [10], 0, 1⟩] 3 1 1 = none ∧
      test_error [0, 5, 10, 1, 1, 1] [⟨[0], [10], 0, 1⟩] 3 1 1 = none ∧
      test_error [0, 5, 10, 1, 1, 1] [] 3 0 1 = none := by
  decide!


/-- With `K = 2` the two count entries suffice: on the centroids `0` and `5`
and the records `0, 6, 7` the function prints the sum of squared errors `5`
and the counts `1, 2`. -/
theorem test_error_two_clusters :
    test_error [0, 5, 1, 1] [⟨[0], [0], 0, 1⟩, ⟨[0], [6], 0, 1⟩, ⟨[0], [7], 0, 1⟩] 2 3 1
      = some (5, [1, 2]) := by
  decide!

/-! ## Centroid initialisation: lemmas -/

theorem writeSample_spec (ks : List Nat) (vs : List ℚ) (base : Nat) (params : List ℚ) (n : Nat)
    (hlen : vs.length = ks.length) (hnd : ks.Nodup) (hk : ∀ k ∈ ks, k < n)
    (hp : base + n ≤ params.length) :
    ∃ r, writeSample ks vs base params = some r ∧ r.length = params.length ∧
      ∀ p, r.getD p 0 =
        if base ≤ p ∧ p - base ∈ ks then denseAt ks vs (p - base) else params.getD p 0 := by
  induction ks generalizing vs params with
  | nil =>
    refine ⟨params, by simp [writeSample], rfl, fun p => ?_⟩
    simp
  | cons k ks ih =>
    cases vs with
    | nil => simp at hlen
    | cons v vs =>
      have hkn : k < n := hk k (by simp)
      have hlt : k + base < params.length := by omega
      rw [List.nodup_cons] at hnd
      obtain ⟨r, hr, hrl, hrg⟩ := ih vs (params.set (k + base) v) (by simpa using hlen) hnd.2
        (fun k2 hk2 => hk k2 (by simp [hk2])) (by rw [List.length_set]; exact hp)
      refine ⟨r, ?_, by rw [hrl, List.length_set], fun p => ?_⟩
      · simp only [writeSample, if_pos hlt]
        exact hr
      · rw [hrg p]
        by_cases hin : base ≤ p ∧ p - base ∈ ks
        · have hne : k ≠ p - base := fun e => hnd.1 (e ▸ hin.2)
          rw [if_pos hin, if_pos ⟨hin.1, by simp [hin.2]⟩]
          simp only [denseAt, if_neg hne]
        · rw [if_neg hin]
          by_cases hpk : k + base = p
          · subst hpk
            rw [getD_set_self _ _ _ hlt, if_pos ⟨by omega, by simp⟩]
            simp [denseAt]
          · rw [getD_set_ne _ _ _ _ hpk, if_neg]
            rintro ⟨h1, h2⟩
            rcases List.mem_cons.mp h2 with h3 | h3
            · omega
            · exact hin ⟨h1, h3⟩

/-- Invariant of the loops of `Init`, carried from any state to the result:
the selected indices are distinct, one per finished slot; each finished slot
holds the dense expansion of its record and has count 1; the rest of `params`
is still zero. -/
theorem initLoop_inv (K n : Nat) (samples : List Sample)
    (hwf : ∀ s ∈ samples, s.values.length = s.keys.length ∧ s.keys.Nodup ∧ ∀ k ∈ s.keys, k < n)
    (draws : List Nat) (i : Nat) (proh : List Nat) (params : List ℚ)
    (P : List ℚ) (sel : List Nat)
    (hi : i ≤ K) (hpl : proh.length = i) (hpn : proh.Nodup) (hlen : params.length = K * n + K)
    (hslot : ∀ j, j < i → ∃ s, samples[proh.getD j 0]? = some s ∧
      ∀ d, d < n → params.getD (j * n + d) 0 = denseAt s.keys s.values d)
    (hcnt : ∀ j, j < i → params.getD (K * n + j) 0 = 1)
    (hzero : ∀ p, (i * n ≤ p ∧ p < K * n) ∨ K * n + i ≤ p → params.getD p 0 = 0)
    (h : initLoop K n samples draws i proh params = some (P, sel)) :
    sel.length = K ∧ sel.Nodup ∧ P.length = K * n + K ∧
      (∀ j, j < K → ∃ s, samples[sel.getD j 0]? = some s ∧
        ∀ d, d < n → P.getD (j * n + d) 0 = denseAt s.keys s.values d) ∧
      (∀ j, j < K → P.getD (K * n + j) 0 = 1) := by
  induction draws generalizing i proh params with
  | nil =>
    simp only [initLoop] at h
    split at h
    · rename_i hK
      simp only [Option.some.injEq, Prod.mk.injEq] at h
      obtain ⟨e1, e2⟩ := h
      subst e1 e2
      have hiK : i = K := by omega
      subst hiK
      exact ⟨hpl, hpn, hlen, hslot, hcnt⟩
    · cases h
  | cons r draws ih =>
    simp only [initLoop] at h
    split at h
    · rename_i hK
      simp only [Option.some.injEq, Prod.mk.injEq] at h
      obtain ⟨e1, e2⟩ := h
      subst e1 e2
      have hiK : i = K := by omega
      subst hiK
      exact ⟨hpl, hpn, hlen, hslot, hcnt⟩
    · rename_i hK
      split at h
      · cases h
      · split at h
        · exact ih i proh params hi hpl hpn hlen hslot hcnt hzero h
        · rename_i hn0 hnotin
          split at h
          · cases h
          · rename_i s hs
            obtain ⟨hsl, hsn, hsk⟩ := hwf s (List.getElem?_mem hs)
            have hiK : i < K := by omega
            have hin := centroid_in_bounds K n i (K * n) hiK (le_refl _)
            obtain ⟨p1, hp1, hp1l, hp1g⟩ := writeSample_spec s.keys s.values (i * n) params n
              hsl hsn hsk (by omega)
            rw [hp1] at h
            simp only at h
            split at h
            · cases h
            · rename_i count hcount
              have hcv := getD_of_getElem? _ _ _ hcount
              have hnotkey : ∀ p, i * n + n ≤ p → ¬ (i * n ≤ p ∧ p - i * n ∈ s.keys) := by
                rintro p hp ⟨_, hmem⟩
                have := hsk _ hmem
                omega
              have hlt : K * n + i < p1.length := by omega
              refine ih (i + 1) (proh ++ [r % n]) (p1.set (K * n + i) (count + 1)) (by omega)
                (by simp [hpl]) ?_ (by rw [List.length_set, hp1l, hlen]) ?_ ?_ ?_ h
              · exact List.Nodup.append hpn (List.nodup_singleton _)
                  (by simpa using hnotin)
              · intro j hj
                by_cases hji : j < i
                · obtain ⟨s2, hs2, hs2g⟩ := hslot j hji
                  have hjn := centroid_in_bounds i n j (i * n) hji (le_refl _)
                  refine ⟨s2, by rw [List.getD_append _ _ _ _ (by omega)]; exact hs2,
                    fun d hd => ?_⟩
                  rw [getD_set_ne _ _ _ _ (by omega), hp1g, if_neg (by omega), hs2g d hd]
                · have hje : j = i := by omega
                  subst hje
                  refine ⟨s, ?_, fun d hd => ?_⟩
                  · rw [List.getD_append_right _ _ _ _ (by omega), hpl]
                    simpa using hs
                  · rw [getD_set_ne _ _ _ _ (by omega), hp1g, Nat.add_sub_cancel_left]
                    by_cases hdk : d ∈ s.keys
                    · rw [if_pos ⟨by omega, hdk⟩]
                    · rw [if_neg (fun hh => hdk hh.2), denseAt_not_mem _ _ _ hdk]
                      exact hzero _ (Or.inl ⟨by omega, by omega⟩)
              · intro j hj
                by_cases hji : j < i
                · rw [getD_set_ne _ _ _ _ (by omega), hp1g, if_neg (hnotkey _ (by omega))]
                  exact hcnt j hji
                · have hje : j = i := by omega
                  subst hje
                  rw [getD_set_self _ _ _ hlt, ← hcv, hp1g, if_neg (hnotkey _ (by omega)),
                    hzero _ (Or.inr (le_refl _))]
                  norm_num
              · intro p hp
                have hi1 : (i + 1) * n = i * n + n := by rw [Nat.add_mul, Nat.one_mul]
                rw [getD_set_ne _ _ _ _ (by omega), hp1g, if_neg (hnotkey _ (by omega))]
                exact hzero p (by omega)

theorem getD_replicate_zero (m p : Nat) : (List.replicate m (0 : ℚ)).getD p 0 = 0 := by
  rw [List.getD_eq_getElem?_getD, List.getElem?_replicate]
  split <;> rfl

/-- The loops of `Init` come to an end on well-formed records once the draws
still hold enough indices that are not yet prohibited. -/
theorem initLoop_completes (K n : Nat) (samples : List Sample)
    (hwf : ∀ s ∈ samples, s.values.length = s.keys.length ∧ s.keys.Nodup ∧ ∀ k ∈ s.keys, k < n)
    (hn : 0 < n) (hwin : samples.length = n)
    (draws : List Nat) (i : Nat) (proh : List Nat) (params : List ℚ)
    (hlen : params.length = K * n + K)
    (hfresh : K - i ≤ ((draws.map (fun r => r % n)).toFinset \ proh.toFinset).card) :
    ∃ res, initLoop K n samples draws i proh params = some res := by
  induction draws generalizing i proh params with
  | nil =>
    have hK : K ≤ i := by
      simp only [List.map_nil, List.toFinset_nil, Finset.empty_sdiff, Finset.card_empty] at hfresh
      omega
    exact ⟨(params, proh), by simp only [initLoop, if_pos hK]⟩
  | cons r draws ih =>
    by_cases hK : K ≤ i
    · exact ⟨(params, proh), by simp only [initLoop, if_pos hK]⟩
    · have hn0 : n ≠ 0 := by omega
      by_cases hmem : r % n ∈ proh
      · have hset : ((List.map (fun r => r % n) (r :: draws)).toFinset \ proh.toFinset)
            = ((List.map (fun r => r % n) draws).toFinset \ proh.toFinset) := by
          rw [List.map_cons, List.toFinset_cons,
            Finset.insert_sdiff_of_mem _ (List.mem_toFinset.mpr hmem)]
        rw [hset] at hfresh
        obtain ⟨res, hres⟩ := ih i proh params hlen hfresh
        exact ⟨res, by simp only [initLoop, if_neg hK, if_neg hn0, if_pos hmem]; exact hres⟩
      · have hidx : r % n < samples.length := by rw [hwin]; exact Nat.mod_lt r hn
        have hs : samples[r % n]? = some (samples[r % n]) := List.getElem?_eq_getElem hidx
        obtain ⟨hsl, hsn, hsk⟩ := hwf _ (List.getElem?_mem hs)
        have hiK : i < K := by omega
        have hin := centroid_in_bounds K n i (K * n) hiK (le_refl _)
        obtain ⟨p1, hp1, hp1l, _⟩ := writeSample_spec (samples[r % n]).keys
          (samples[r % n]).values (i * n) params n hsl hsn hsk (by omega)
        have hc := getElem?_of_lt p1 (K * n + i) (by omega)
        have hcard : K - (i + 1) ≤ ((List.map (fun r => r % n) draws).toFinset
            \ (proh ++ [r % n]).toFinset).card := by
          have hsub : ((List.map (fun r => r % n) (r :: draws)).toFinset \ proh.toFinset)
              ⊆ insert (r % n) ((List.map (fun r => r % n) draws).toFinset
                \ (proh ++ [r % n]).toFinset) := by
            intro x hx
            simp only [List.map_cons, List.toFinset_cons, Finset.mem_sdiff, Finset.mem_insert,
              List.mem_toFinset, List.toFinset_append, List.toFinset_nil, Finset.mem_union,
              Finset.mem_singleton, insert_emptyc_eq] at hx ⊢
            by_cases hxr : x = r % n
            · exact Or.inl hxr
            · rcases hx with ⟨h1 | h1, h2⟩
              · exact absurd h1 hxr
              · exact Or.inr ⟨h1, fun h3 => h3.elim h2 hxr⟩
          have h1 := Finset.card_le_card hsub
          have h2 := Finset.card_insert_le (r % n) ((List.map (fun r => r % n) draws).toFinset
            \ (proh ++ [r % n]).toFinset)
          omega
        obtain ⟨res, hres⟩ := ih (i + 1) (proh ++ [r % n])
          (p1.set (K * n + i) (p1.getD (K * n + i) 0 + 1))
          (by rw [List.length_set, hp1l, hlen]) hcard
        refine ⟨res, ?_⟩
        simp only [initLoop, if_neg hK, if_neg hn0, if_neg hmem, hs, hp1, hc]
        exact hres

/-- C12: when `Init` on worker 0 completes on a window of well-formed records,
the `K` selected record indices are pairwise distinct, centroid slot `i` of
the initial model holds the features of the `i`-th selected record (its value
at each of its keys, 0 at every other dimension), and each of the `K` count
entries is 1.  It does complete whenever the window holds `input_size > 0`
records and the draws reach at least `K` different indices. -/
theorem Init_selects_distinct_records (K n : Nat) (samples : List Sample) (draws : List Nat)
    (hwf : ∀ s ∈ samples, s.values.length = s.keys.length ∧ s.keys.Nodup ∧
      ∀ k ∈ s.keys, k < n) :
    (∀ params selected, Init K n samples draws = some (params, selected) →
      selected.length = K ∧ selected.Nodup ∧ params.length = K * n + K ∧
      (∀ i, i < K → ∃ s, samples[selected.getD i 0]? = some s ∧
        ∀ d, d < n → params.getD (i * n + d) 0 = denseAt s.keys s.values d) ∧
      (∀ i, i < K → params.getD (K * n + i) 0 = 1)) ∧
    (0 < n → samples.length = n →
      K ≤ ((draws.map (fun r => r % n)).toFinset).card →
      ∃ params selected, Init K n samples draws = some (params, selected)) := by
  have hlen : (List.replicate (n * K + K) (0 : ℚ)).length = K * n + K := by
    rw [List.length_replicate, Nat.mul_comm]
  constructor
  · intro params selected h
    exact initLoop_inv K n samples hwf draws 0 [] _ params selected (Nat.zero_le K) rfl
      List.nodup_nil hlen (fun j hj => absurd hj (Nat.not_lt_zero j))
      (fun j hj => absurd hj (Nat.not_lt_zero j)) (fun p _ => getD_replicate_zero _ p) h
  · intro hn hwin hcard
    obtain ⟨res, hres⟩ := initLoop_completes K n samples hwf hn hwin draws 0 [] _ hlen
      (by simpa using hcard)
    exact ⟨res.1, res.2, hres⟩

/-- Witness of C12: three records over three features, `K = 2`, and the draws
`4, 4, 4, 7, 2, 3`, whose indices are `1, 1, 1, 1, 2, 0`; records 1 and 2 are
selected. -/
theorem Init_selects_distinct_records_witness :
    Init 2 3 [⟨[0], [5], 0, 1⟩, ⟨[1, 2], [7, 8], 0, 1⟩, ⟨[2], [9], 0, 1⟩] [4, 4, 4, 7, 2, 3]
        = some ([0, 7, 8, 0, 0, 9, 1, 1], [1, 2]) ∧
      ([1, 2] : List Nat).length = 2 ∧ ([1, 2] : List Nat).Nodup ∧
      ([0, 7, 8, 0, 0, 9, 1, 1] : List ℚ).length = 2 * 3 + 2 ∧
      (∀ i, i < 2 → ∃ s,
        ([⟨[0], [5], 0, 1⟩, ⟨[1, 2], [7, 8], 0, 1⟩, ⟨[2], [9], 0, 1⟩] : List Sample)[
          ([1, 2] : List Nat).getD i 0]? = some s ∧
        ∀ d, d < 3 → ([0, 7, 8, 0, 0, 9, 1, 1] : List ℚ).getD (i * 3 + d) 0
          = denseAt s.keys s.values d) ∧
      (∀ i, i < 2 → ([0, 7, 8, 0, 0, 9, 1, 1] : List ℚ).getD (2 * 3 + i) 0 = 1) :=
  have hrun : Init 2 3 [⟨[0], [5], 0, 1⟩, ⟨[1, 2], [7, 8], 0, 1⟩, ⟨[2], [9], 0, 1⟩]
      [4, 4, 4, 7, 2, 3] = some ([0, 7, 8, 0, 0, 9, 1, 1], [1, 2]) := by
    simp [Init, initLoop, writeSample]
  ⟨hrun, (Init_selects_distinct_records 2 3
    [⟨[0], [5], 0, 1⟩, ⟨[1, 2], [7, 8], 0, 1⟩, ⟨[2], [9], 0, 1⟩] [4, 4, 4, 7, 2, 3]
    (by
      intro s hs
      simp only [List.mem_cons, List.mem_singleton, List.not_mem_nil, or_false] at hs
      rcases hs with h | h | h <;> subst h <;> decide)).1 _ _ hrun⟩


end KMeans
